import Mathlib

/-!
# Jaffe and logarithmic-halo potential evaluators

A shallow embedding of `JaffePotential.c` and `LogarithmicHaloPotential.c`
(galpy, `potential_src/potential_c_ext`).

* A C `double` is read as an exact number: an element of a linearly ordered
  field `α` (the theorems below take `α = ℝ`).
* An operation on which IEEE 754 arithmetic leaves the finite numbers has no
  exact value; the embedding makes it fail (`none`): a division by zero, a
  `pow` of zero to a negative exponent, a `pow` of a negative base to a
  non-integer exponent.  Every function therefore returns `Option α`.
* libm's `pow` is a parameter of the functions that call it; over `ℝ` it is
  `Real.rpow`.
* `double *args` is a list together with an offset; `*args++`, `*args--` and
  `*args` read the cell at the offset and move the offset.  A read outside the
  list fails.
-/

namespace Galpy

variable {α : Type} [LinearOrderedField α]

/-- C division `x / y` on doubles read as exact numbers: no value when `y` is zero. -/
def cdiv (x y : α) : Option α :=
  if y = 0 then none else some (x / y)

/-- C library call `pow(x, y)`, with `rpow` the exact power function: a pole error
(`x` zero, `y` negative) and a domain error (`x` negative, `y` not an integer)
have no value. -/
def cpow [FloorRing α] (rpow : α → α → α) (x y : α) : Option α :=
  if x = 0 ∧ y < 0 then none
  else if x < 0 ∧ ((⌊y⌋ : ℤ) : α) ≠ y then none
  else some (rpow x y)

/-- Dereference `*args` of the pointer `args + off`. -/
def deref (args : List α) (off : Nat) : Option α :=
  args.get? off

/-- Translation of `JaffePotentialRforce` (JaffePotential.c, lines 5-14). -/
def JaffePotentialRforce [FloorRing α] (rpow : α → α → α) (R Z _phi _t : α) (_nargs : Int)
    (args : List α) : Option α := do
  let p := 0
  let amp ← deref args p
  let p := p + 1
  let a ← deref args p
  let sqrtRz ← cpow rpow (R * R + Z * Z) 0.5
  let pw ← cpow rpow sqrtRz (-3)
  let q ← cdiv a sqrtRz
  cdiv (-amp * a * R * pw) (1 + q)

/-- Translation of `JaffePotentialPlanarRforce` (JaffePotential.c, lines 15-23). -/
def JaffePotentialPlanarRforce [FloorRing α] (rpow : α → α → α) (R _phi _t : α) (_nargs : Int)
    (args : List α) : Option α := do
  let p := 0
  let amp ← deref args p
  let p := p + 1
  let a ← deref args p
  let pw ← cpow rpow R (-2)
  let q ← cdiv a R
  cdiv (-amp * a * pw) (1 + q)

/-- Translation of `JaffePotentialzforce` (JaffePotential.c, lines 24-33). -/
def JaffePotentialzforce [FloorRing α] (rpow : α → α → α) (R Z _phi _t : α) (_nargs : Int)
    (args : List α) : Option α := do
  let p := 0
  let amp ← deref args p
  let p := p + 1
  let a ← deref args p
  let sqrtRz ← cpow rpow (R * R + Z * Z) 0.5
  let pw ← cpow rpow sqrtRz (-3)
  let q ← cdiv a sqrtRz
  cdiv (-amp * a * Z * pw) (1 + q)

/-- Translation of `JaffePotentialPlanarR2deriv` (JaffePotential.c, lines 34-42). -/
def JaffePotentialPlanarR2deriv [FloorRing α] (rpow : α → α → α) (R _phi _t : α) (_nargs : Int)
    (args : List α) : Option α := do
  let p := 0
  let amp ← deref args p
  let p := p + 1
  let a ← deref args p
  let pw4 ← cpow rpow R (-4)
  let q ← cdiv a R
  let pw2 ← cpow rpow (1 + q) (-2)
  pure (-amp * a * (a + 2 * R) * pw4 * pw2)

/-- Translation of `LogarithmicHaloPotentialRforce`
(LogarithmicHaloPotential.c, lines 4-14). -/
def LogarithmicHaloPotentialRforce (R Z _phi _t : α) (_nargs : Int)
    (args : List α) : Option α := do
  let p := 0
  let amp ← deref args p
  let p := p + 1
  let q ← deref args p
  let p := p + 1
  let c ← deref args p
  let _p := p - 1
  let zq ← cdiv Z q
  cdiv (-amp * R) (R * R + zq * zq + c)

/-- Translation of `LogarithmicHaloPotentialPlanarRforce`
(LogarithmicHaloPotential.c, lines 15-23). -/
def LogarithmicHaloPotentialPlanarRforce (R _phi _t : α) (_nargs : Int)
    (args : List α) : Option α := do
  let p := 0
  let amp ← deref args p
  let p := p + 1
  let c ← deref args p
  cdiv (-amp * R) (R * R + c)

/-- Translation of `LogarithmicHaloPotentialzforce`
(LogarithmicHaloPotential.c, lines 24-34). -/
def LogarithmicHaloPotentialzforce (R z _phi _t : α) (_nargs : Int)
    (args : List α) : Option α := do
  let p := 0
  let amp ← deref args p
  let p := p + 1
  let q ← deref args p
  let p := p + 1
  let c ← deref args p
  let _p := p - 1
  let zq ← cdiv z q
  let n1 ← cdiv (-amp * z) q
  let n2 ← cdiv n1 q
  cdiv n2 (R * R + zq * zq + c)

/-- Translation of `LogarithmicHaloPotentialPlanarR2deriv`
(LogarithmicHaloPotential.c, lines 35-43). -/
def LogarithmicHaloPotentialPlanarR2deriv (R _phi _t : α) (_nargs : Int)
    (args : List α) : Option α := do
  let p := 0
  let amp ← deref args p
  let p := p + 1
  let c ← deref args p
  let r ← cdiv (2 * R * R) (R * R + c)
  cdiv (amp * (1 - r)) (R * R + c)

/-! ## Evaluation lemmas -/

theorem cdiv_of_ne (x : α) {y : α} (h : y ≠ 0) : cdiv x y = some (x / y) := by
  simp [cdiv, h]

theorem cdiv_zero (x : α) : cdiv x (0 : α) = none := by
  simp [cdiv]

theorem cpow_half (x : ℝ) (hx : 0 ≤ x) : cpow Real.rpow x 0.5 = some (Real.sqrt x) := by
  have h1 : ¬ ((0.5 : ℝ) < 0) := by norm_num
  have h2 : ¬ (x < 0) := not_lt.mpr hx
  have h3 : (0.5 : ℝ) = 1 / 2 := by norm_num
  simp only [cpow, h1, h2, and_false, false_and, if_false, Real.rpow_eq_pow]
  rw [h3, ← Real.sqrt_eq_rpow]

theorem cpow_negNat (x : ℝ) (n : ℕ) (hx : x ≠ 0) :
    cpow Real.rpow x (-(n : ℝ)) = some ((x ^ n)⁻¹) := by
  have h0 : (-(n : ℝ)) = ((-(n : ℤ) : ℤ) : ℝ) := by push_cast; rfl
  have h2 : ((⌊(-(n : ℝ))⌋ : ℤ) : ℝ) = -(n : ℝ) := by
    rw [h0, Int.floor_intCast]
  simp only [cpow, hx, h2, false_and, ne_eq, not_true_eq_false, and_false, if_false,
    Real.rpow_eq_pow]
  rw [h0, Real.rpow_intCast, zpow_neg, zpow_natCast]

theorem cpow_neg2 (x : ℝ) (hx : x ≠ 0) : cpow Real.rpow x (-2) = some ((x ^ 2)⁻¹) := by
  simpa using cpow_negNat x 2 hx

theorem cpow_neg3 (x : ℝ) (hx : x ≠ 0) : cpow Real.rpow x (-3) = some ((x ^ 3)⁻¹) := by
  simpa using cpow_negNat x 3 hx

theorem cpow_neg4 (x : ℝ) (hx : x ≠ 0) : cpow Real.rpow x (-4) = some ((x ^ 4)⁻¹) := by
  simpa using cpow_negNat x 4 hx

theorem sumsq_nonneg (R Z : ℝ) : 0 ≤ R * R + Z * Z := by
  nlinarith [mul_self_nonneg R, mul_self_nonneg Z]

/-- The 3-D Jaffe radial force where the spherical radius is not zero. -/
theorem JaffePotentialRforce_eval (R Z phi t amp a : ℝ) (n : Int) (rest : List ℝ)
    (hs : Real.sqrt (R * R + Z * Z) ≠ 0) :
    JaffePotentialRforce Real.rpow R Z phi t n (amp :: a :: rest) =
      cdiv (-amp * a * R * ((Real.sqrt (R * R + Z * Z)) ^ 3)⁻¹)
        (1 + a / Real.sqrt (R * R + Z * Z)) := by
  simp [JaffePotentialRforce, deref, cpow_half _ (sumsq_nonneg R Z), cpow_neg3 _ hs,
    cdiv_of_ne _ hs]

/-- The 3-D Jaffe vertical force where the spherical radius is not zero. -/
theorem JaffePotentialzforce_eval (R Z phi t amp a : ℝ) (n : Int) (rest : List ℝ)
    (hs : Real.sqrt (R * R + Z * Z) ≠ 0) :
    JaffePotentialzforce Real.rpow R Z phi t n (amp :: a :: rest) =
      cdiv (-amp * a * Z * ((Real.sqrt (R * R + Z * Z)) ^ 3)⁻¹)
        (1 + a / Real.sqrt (R * R + Z * Z)) := by
  simp [JaffePotentialzforce, deref, cpow_half _ (sumsq_nonneg R Z), cpow_neg3 _ hs,
    cdiv_of_ne _ hs]

/-- The planar Jaffe radial force where the radius is not zero. -/
theorem JaffePotentialPlanarRforce_eval (R phi t amp a : ℝ) (n : Int) (rest : List ℝ)
    (hR : R ≠ 0) :
    JaffePotentialPlanarRforce Real.rpow R phi t n (amp :: a :: rest) =
      cdiv (-amp * a * (R ^ 2)⁻¹) (1 + a / R) := by
  simp [JaffePotentialPlanarRforce, deref, cpow_neg2 _ hR, cdiv_of_ne _ hR]

/-- The 3-D logarithmic-halo radial force where the flattening is not zero. -/
theorem LogarithmicHaloPotentialRforce_eval (R Z phi t amp q c : α) (n : Int) (rest : List α)
    (hq : q ≠ 0) :
    LogarithmicHaloPotentialRforce R Z phi t n (amp :: q :: c :: rest) =
      cdiv (-amp * R) (R * R + Z / q * (Z / q) + c) := by
  simp [LogarithmicHaloPotentialRforce, deref, cdiv_of_ne _ hq]

/-- The 3-D logarithmic-halo vertical force where the flattening is not zero. -/
theorem LogarithmicHaloPotentialzforce_eval (R Z phi t amp q c : α) (n : Int) (rest : List α)
    (hq : q ≠ 0) :
    LogarithmicHaloPotentialzforce R Z phi t n (amp :: q :: c :: rest) =
      cdiv (-amp * Z / q / q) (R * R + Z / q * (Z / q) + c) := by
  simp [LogarithmicHaloPotentialzforce, deref, cdiv_of_ne _ hq]

/-- The planar logarithmic-halo radial force. -/
theorem LogarithmicHaloPotentialPlanarRforce_eval (R phi t amp c : α) (n : Int) (rest : List α) :
    LogarithmicHaloPotentialPlanarRforce R phi t n (amp :: c :: rest) =
      cdiv (-amp * R) (R * R + c) := by
  simp [LogarithmicHaloPotentialPlanarRforce, deref]

/-! ## Planar specialisation -/

/-- C2: for `R > 0`, `c ≥ 0` and `q > 0`, the 3-D logarithmic-halo radial force at `Z = 0`
on `[1, q, c]` equals the planar radial force on `[1, c]`, both calls return a value, and
the 3-D value at `Z = 0` is the same for every other flattening `q' > 0`. -/
theorem logHalo_Rforce_planar_consistency (R q c phi t : ℝ) (n m : Int)
    (hR : 0 < R) (hc : 0 ≤ c) (hq : 0 < q) :
    LogarithmicHaloPotentialRforce R 0 phi t n [1, q, c]
        = LogarithmicHaloPotentialPlanarRforce R phi t m [1, c]
      ∧ (∃ v, LogarithmicHaloPotentialPlanarRforce R phi t m [1, c] = some v)
      ∧ ∀ q', 0 < q' → LogarithmicHaloPotentialRforce R 0 phi t n [1, q', c]
          = LogarithmicHaloPotentialRforce R 0 phi t n [1, q, c] := by
  have hd : R * R + c ≠ 0 := by positivity
  have key : ∀ q' : ℝ, 0 < q' → LogarithmicHaloPotentialRforce R 0 phi t n [1, q', c]
      = some (-1 * R / (R * R + c)) := by
    intro q' hq'
    rw [LogarithmicHaloPotentialRforce_eval R 0 phi t 1 q' c n [] hq'.ne']
    simp [cdiv_of_ne _ hd]
  rw [LogarithmicHaloPotentialPlanarRforce_eval, cdiv_of_ne _ hd]
  refine ⟨key q hq, ⟨_, rfl⟩, fun q' hq' => ?_⟩
  rw [key q' hq', key q hq]

/-- A concrete instance: `R = 1`, `q = 2`, `c = 1`. -/
theorem logHalo_Rforce_planar_consistency_witness :
    (0 : ℝ) < 1 ∧ (0 : ℝ) ≤ 1 ∧ (0 : ℝ) < 2 ∧
      (LogarithmicHaloPotentialRforce (1 : ℝ) 0 0 0 3 [1, 2, 1]
          = LogarithmicHaloPotentialPlanarRforce (1 : ℝ) 0 0 2 [1, 1]
        ∧ (∃ v, LogarithmicHaloPotentialPlanarRforce (1 : ℝ) 0 0 2 [1, 1] = some v)
        ∧ ∀ q', 0 < q' → LogarithmicHaloPotentialRforce (1 : ℝ) 0 0 0 3 [1, q', 1]
            = LogarithmicHaloPotentialRforce (1 : ℝ) 0 0 0 3 [1, 2, 1]) :=
  ⟨by norm_num, by norm_num, by norm_num,
    logHalo_Rforce_planar_consistency 1 2 1 0 0 3 2 (by norm_num) (by norm_num) (by norm_num)⟩

/-! ## Symmetry and scaling -/

theorem cdiv_neg_left (x y : α) : cdiv (-x) y = (cdiv x y).map (fun v => -v) := by
  unfold cdiv
  split <;> simp [neg_div]

/-- C3: both vertical forces are odd in `Z`, for every `R`, `Z`, `phi`, `t` and every
parameter array: the call at `Z` returns the negated result of the call at `-Z`
(and has no value exactly when that call has none). -/
theorem zforce_odd_in_Z (R Z phi t : ℝ) (n : Int) (p : List ℝ) :
    JaffePotentialzforce Real.rpow R Z phi t n p
        = (JaffePotentialzforce Real.rpow R (-Z) phi t n p).map (fun v => -v)
      ∧ LogarithmicHaloPotentialzforce R Z phi t n p
        = (LogarithmicHaloPotentialzforce R (-Z) phi t n p).map (fun v => -v) := by
  constructor
  · simp only [JaffePotentialzforce, neg_mul_neg]
    simp [cdiv_neg_left, Option.map_bind]
  · simp only [LogarithmicHaloPotentialzforce]
    simp [cdiv_neg_left, Option.map_bind, Option.bind_map, Function.comp_def]

/-- C5: at `R = 2` with parameters `[amp, a] = [1, 1]`, `JaffePotentialPlanarR2deriv`
returns `-1*1*(1+4)*2^-4*(1+0.5)^-2 = -5/16/2.25`, which is exactly `-5/36` and lies
within `0.000005` of `-0.13889`. -/
theorem jaffe_PlanarR2deriv_concrete (phi t : ℝ) (n : Int) :
    JaffePotentialPlanarR2deriv Real.rpow 2 phi t n [1, 1]
        = some (-1 * 1 * (1 + 4) * (2 : ℝ) ^ (-4 : ℤ) * ((1 : ℝ) + 0.5) ^ (-2 : ℤ))
      ∧ -1 * 1 * (1 + 4) * (2 : ℝ) ^ (-4 : ℤ) * ((1 : ℝ) + 0.5) ^ (-2 : ℤ) = -5 / 16 / 2.25
      ∧ (-5 / 16 / 2.25 : ℝ) = -5 / 36
      ∧ |(-5 / 36 : ℝ) - (-0.13889)| ≤ 0.000005 := by
  have h2 : (2 : ℝ) ≠ 0 := by norm_num
  have h3 : (1 + 1 / 2 : ℝ) ≠ 0 := by norm_num
  refine ⟨?_, by norm_num [zpow_neg], by norm_num, ?_⟩
  · simp only [JaffePotentialPlanarR2deriv, deref, List.get?_cons_zero, List.get?_cons_succ,
      zero_add, Option.some_bind, Option.bind_eq_bind, cpow_neg4 _ h2, cdiv_of_ne _ h2,
      cpow_neg2 _ h3, Option.pure_def]
    congr 1
    norm_num [zpow_neg]
  · rw [abs_le]
    constructor <;> norm_num

/-- C6: at `R = 1` with parameters `[amp, c] = [1, 1]`,
`LogarithmicHaloPotentialPlanarRforce` returns `-1*1/(1+1)`, which is exactly `-1/2`. -/
theorem logHalo_PlanarRforce_concrete (phi t : ℝ) (n : Int) :
    LogarithmicHaloPotentialPlanarRforce 1 phi t n [1, 1] = some (-1 * 1 / (1 + 1))
      ∧ (-1 * 1 / (1 + 1) : ℝ) = -1 / 2 := by
  have h : (1 * 1 + 1 : ℝ) ≠ 0 := by norm_num
  refine ⟨?_, by norm_num⟩
  rw [LogarithmicHaloPotentialPlanarRforce_eval, cdiv_of_ne _ h]
  norm_num

/-! ## The closed forms of the spec -/

/-- C7: with the array read positionally as `[amp, q, c]` and `q ≠ 0`, for every `R`, `Z`:
`LogarithmicHaloPotentialRforce` returns `-amp*R/(R^2 + (Z/q)^2 + c)` and
`LogarithmicHaloPotentialzforce` returns `-amp*(Z/q^2)/(R^2 + (Z/q)^2 + c)`, the division
by the common denominator being the guarded one; where that denominator is not zero both
calls return these values.  Cells after `c` and the pointer decrement play no part. -/
theorem logHalo_forces_closed_form (R Z phi t amp q c : ℝ) (n : Int) (rest : List ℝ)
    (hq : q ≠ 0) :
    (LogarithmicHaloPotentialRforce R Z phi t n (amp :: q :: c :: rest)
        = cdiv (-amp * R) (R ^ 2 + (Z / q) ^ 2 + c)
      ∧ LogarithmicHaloPotentialzforce R Z phi t n (amp :: q :: c :: rest)
        = cdiv (-amp * (Z / q ^ 2)) (R ^ 2 + (Z / q) ^ 2 + c))
    ∧ (R ^ 2 + (Z / q) ^ 2 + c ≠ 0 →
        LogarithmicHaloPotentialRforce R Z phi t n (amp :: q :: c :: rest)
          = some (-amp * R / (R ^ 2 + (Z / q) ^ 2 + c))
        ∧ LogarithmicHaloPotentialzforce R Z phi t n (amp :: q :: c :: rest)
          = some (-amp * (Z / q ^ 2) / (R ^ 2 + (Z / q) ^ 2 + c))) := by
  have hD : R * R + Z / q * (Z / q) + c = R ^ 2 + (Z / q) ^ 2 + c := by ring
  have hN : -amp * Z / q / q = -amp * (Z / q ^ 2) := by ring
  rw [LogarithmicHaloPotentialRforce_eval R Z phi t amp q c n rest hq,
    LogarithmicHaloPotentialzforce_eval R Z phi t amp q c n rest hq, hD, hN]
  exact ⟨⟨rfl, rfl⟩, fun h => ⟨cdiv_of_ne _ h, cdiv_of_ne _ h⟩⟩

/-- A concrete instance: `R = 1`, `Z = 2`, `[amp, q, c] = [1, 2, 1]`. -/
theorem logHalo_forces_closed_form_witness :
    (2 : ℝ) ≠ 0 ∧
    ((LogarithmicHaloPotentialRforce (1 : ℝ) 2 0 0 3 [1, 2, 1]
        = cdiv (-1 * 1) ((1 : ℝ) ^ 2 + (2 / 2) ^ 2 + 1)
      ∧ LogarithmicHaloPotentialzforce (1 : ℝ) 2 0 0 3 [1, 2, 1]
        = cdiv (-1 * (2 / 2 ^ 2)) ((1 : ℝ) ^ 2 + (2 / 2) ^ 2 + 1))
    ∧ ((1 : ℝ) ^ 2 + (2 / 2) ^ 2 + 1 ≠ 0 →
        LogarithmicHaloPotentialRforce (1 : ℝ) 2 0 0 3 [1, 2, 1]
          = some (-1 * 1 / ((1 : ℝ) ^ 2 + (2 / 2) ^ 2 + 1))
        ∧ LogarithmicHaloPotentialzforce (1 : ℝ) 2 0 0 3 [1, 2, 1]
          = some (-1 * (2 / 2 ^ 2) / ((1 : ℝ) ^ 2 + (2 / 2) ^ 2 + 1)))) :=
  ⟨by norm_num, logHalo_forces_closed_form 1 2 0 0 1 2 1 3 [] (by norm_num)⟩

/-- C8: with parameters `[amp, a]` and `s = sqrt(R^2 + Z^2) > 0`: `JaffePotentialRforce`
returns `-amp*a*R*s^-3/(1 + a/s)` and `JaffePotentialzforce` returns
`-amp*a*Z*s^-3/(1 + a/s)`, the outer division being the guarded one; when additionally
`s + a ≠ 0` both calls return these values, which equal `-amp*a*R/(s^2*(s + a))` and
`-amp*a*Z/(s^2*(s + a))`. -/
theorem jaffe_forces_closed_form (R Z phi t amp a s : ℝ) (n : Int) (rest : List ℝ)
    (hs : s = Real.sqrt (R ^ 2 + Z ^ 2)) (hpos : 0 < s) :
    (JaffePotentialRforce Real.rpow R Z phi t n (amp :: a :: rest)
        = cdiv (-amp * a * R * s ^ (-3 : ℤ)) (1 + a / s)
      ∧ JaffePotentialzforce Real.rpow R Z phi t n (amp :: a :: rest)
        = cdiv (-amp * a * Z * s ^ (-3 : ℤ)) (1 + a / s))
    ∧ (s + a ≠ 0 →
        (JaffePotentialRforce Real.rpow R Z phi t n (amp :: a :: rest)
            = some (-amp * a * R * s ^ (-3 : ℤ) / (1 + a / s))
          ∧ -amp * a * R * s ^ (-3 : ℤ) / (1 + a / s) = -amp * a * R / (s ^ 2 * (s + a)))
        ∧ (JaffePotentialzforce Real.rpow R Z phi t n (amp :: a :: rest)
            = some (-amp * a * Z * s ^ (-3 : ℤ) / (1 + a / s))
          ∧ -amp * a * Z * s ^ (-3 : ℤ) / (1 + a / s) = -amp * a * Z / (s ^ 2 * (s + a)))) := by
  have hs' : Real.sqrt (R * R + Z * Z) = s := by
    rw [hs]; congr 1; ring
  have hne : Real.sqrt (R * R + Z * Z) ≠ 0 := by rw [hs']; exact hpos.ne'
  have hp : (s ^ 3)⁻¹ = s ^ (-3 : ℤ) := by
    rw [zpow_neg]; norm_cast
  rw [JaffePotentialRforce_eval R Z phi t amp a n rest hne,
    JaffePotentialzforce_eval R Z phi t amp a n rest hne, hs', hp]
  refine ⟨⟨rfl, rfl⟩, fun h => ?_⟩
  have hd : 1 + a / s ≠ 0 := by
    have : 1 + a / s = (s + a) / s := by field_simp
    rw [this]
    exact div_ne_zero h hpos.ne'
  have hs0 : s ≠ 0 := hpos.ne'
  refine ⟨⟨cdiv_of_ne _ hd, ?_⟩, ⟨cdiv_of_ne _ hd, ?_⟩⟩
  · rw [← hp]; field_simp; ring
  · rw [← hp]; field_simp; ring

/-- A concrete instance: `R = 3`, `Z = 4` (so `s = 5`), `[amp, a] = [1, 1]`. -/
theorem jaffe_forces_closed_form_witness :
    (5 : ℝ) = Real.sqrt (3 ^ 2 + 4 ^ 2) ∧ (0 : ℝ) < 5 ∧
    ((JaffePotentialRforce Real.rpow (3 : ℝ) 4 0 0 2 [1, 1]
        = cdiv (-1 * 1 * 3 * (5 : ℝ) ^ (-3 : ℤ)) (1 + 1 / 5)
      ∧ JaffePotentialzforce Real.rpow (3 : ℝ) 4 0 0 2 [1, 1]
        = cdiv (-1 * 1 * 4 * (5 : ℝ) ^ (-3 : ℤ)) (1 + 1 / 5))
    ∧ ((5 : ℝ) + 1 ≠ 0 →
        (JaffePotentialRforce Real.rpow (3 : ℝ) 4 0 0 2 [1, 1]
            = some (-1 * 1 * 3 * (5 : ℝ) ^ (-3 : ℤ) / (1 + 1 / 5))
          ∧ -1 * 1 * 3 * (5 : ℝ) ^ (-3 : ℤ) / (1 + 1 / 5) = -1 * 1 * 3 / (5 ^ 2 * (5 + 1)))
        ∧ (JaffePotentialzforce Real.rpow (3 : ℝ) 4 0 0 2 [1, 1]
            = some (-1 * 1 * 4 * (5 : ℝ) ^ (-3 : ℤ) / (1 + 1 / 5))
          ∧ -1 * 1 * 4 * (5 : ℝ) ^ (-3 : ℤ) / (1 + 1 / 5) = -1 * 1 * 4 / (5 ^ 2 * (5 + 1))))) :=
  have h5 : (5 : ℝ) = Real.sqrt (3 ^ 2 + 4 ^ 2) := by
    rw [show (3 : ℝ) ^ 2 + 4 ^ 2 = 5 * 5 by norm_num, Real.sqrt_mul_self (by norm_num)]
  ⟨h5, by norm_num, jaffe_forces_closed_form 3 4 0 0 1 1 5 2 [] h5 (by norm_num)⟩

/-! ## Sign of the forces -/

theorem sqrt_sumsq_pos (R Z : ℝ) (h : R ≠ 0 ∨ Z ≠ 0) : 0 < Real.sqrt (R * R + Z * Z) := by
  apply Real.sqrt_pos.mpr
  rcases h with h | h
  · nlinarith [mul_self_pos.mpr h, mul_self_nonneg Z]
  · nlinarith [mul_self_pos.mpr h, mul_self_nonneg R]

/-- The planar Jaffe second derivative where `R` and `1 + a/R` are not zero. -/
theorem JaffePotentialPlanarR2deriv_eval (R phi t amp a : ℝ) (n : Int) (rest : List ℝ)
    (hR : R ≠ 0) (hd : 1 + a / R ≠ 0) :
    JaffePotentialPlanarR2deriv Real.rpow R phi t n (amp :: a :: rest) =
      some (-amp * a * (a + 2 * R) * (R ^ 4)⁻¹ * ((1 + a / R) ^ 2)⁻¹) := by
  simp [JaffePotentialPlanarR2deriv, deref, cpow_neg4 _ hR, cdiv_of_ne _ hR, cpow_neg2 _ hd]

/-- The planar logarithmic-halo second derivative where `R*R + c` is not zero. -/
theorem LogarithmicHaloPotentialPlanarR2deriv_eval (R phi t amp c : α) (n : Int)
    (rest : List α) (hd : R * R + c ≠ 0) :
    LogarithmicHaloPotentialPlanarR2deriv R phi t n (amp :: c :: rest) =
      some (amp * (1 - 2 * R * R / (R * R + c)) / (R * R + c)) := by
  simp [LogarithmicHaloPotentialPlanarR2deriv, deref, cdiv_of_ne _ hd]

/-- C11: for every `amp`, `a > 0` and `R > 0`, a real function `g` that takes the value
of `JaffePotentialPlanarRforce(r, ..., [amp, a])` wherever that call returns one is
differentiable at `R`, and its derivative there is the negation of the value returned by
`JaffePotentialPlanarR2deriv(R, ..., [amp, a])`. -/
theorem jaffe_PlanarR2deriv_is_derivative (amp a R phi t : ℝ) (n m : Int) (g : ℝ → ℝ)
    (ha : 0 < a) (hR : 0 < R)
    (hg : ∀ r v, JaffePotentialPlanarRforce Real.rpow r phi t n [amp, a] = some v → g r = v) :
    ∃ d, JaffePotentialPlanarR2deriv Real.rpow R phi t m [amp, a] = some d
      ∧ HasDerivAt g (-d) R := by
  have hd : 1 + a / R ≠ 0 := by positivity
  have hq : R ^ 2 + a * R ≠ 0 := by positivity
  refine ⟨_, JaffePotentialPlanarR2deriv_eval R phi t amp a m [] hR.ne' hd, ?_⟩
  have h1 : HasDerivAt (fun r : ℝ => r ^ 2 + a * r) (2 * R + a) R := by
    have := (hasDerivAt_pow 2 R).add ((hasDerivAt_id R).const_mul a)
    simpa using this
  have h3 := (h1.inv hq).const_mul (-(amp * a))
  have hev : g =ᶠ[nhds R] fun r => -(amp * a) * (r ^ 2 + a * r)⁻¹ := by
    filter_upwards [eventually_gt_nhds hR] with r hr
    have hdr : 1 + a / r ≠ 0 := by positivity
    have hv := hg r _ (by
      rw [JaffePotentialPlanarRforce_eval r phi t amp a n [] hr.ne', cdiv_of_ne _ hdr])
    rw [hv]
    field_simp
    ring
  have h4 := h3.congr_of_eventuallyEq hev
  convert h4 using 1
  field_simp
  ring

/-- A concrete instance: `amp = 1`, `a = 1`, `R = 2`, with `g` the returned value (and `0`
where there is none). -/
theorem jaffe_PlanarR2deriv_is_derivative_witness :
    (0 : ℝ) < 1 ∧ (0 : ℝ) < 2 ∧
      ∃ d, JaffePotentialPlanarR2deriv Real.rpow (2 : ℝ) 0 0 2 [1, 1] = some d
        ∧ HasDerivAt
            (fun r => (JaffePotentialPlanarRforce Real.rpow r 0 0 2 [(1 : ℝ), 1]).getD 0)
            (-d) 2 :=
  ⟨by norm_num, by norm_num,
    jaffe_PlanarR2deriv_is_derivative 1 1 2 0 0 2 2 _ (by norm_num) (by norm_num)
      (fun r v h => by simp [h])⟩

/-- C12: for every `amp`, `c` and `R` with `R^2 + c > 0`, a real function `g` that takes
the value of `LogarithmicHaloPotentialPlanarRforce(r, ..., [amp, c])` wherever that call
returns one is differentiable at `R`, and its derivative there is the negation of the
value returned by `LogarithmicHaloPotentialPlanarR2deriv(R, ..., [amp, c])`. -/
theorem logHalo_PlanarR2deriv_is_derivative (amp c R phi t : ℝ) (n m : Int) (g : ℝ → ℝ)
    (hpos : 0 < R ^ 2 + c)
    (hg : ∀ r v, LogarithmicHaloPotentialPlanarRforce r phi t n [amp, c] = some v → g r = v) :
    ∃ d, LogarithmicHaloPotentialPlanarR2deriv R phi t m [amp, c] = some d
      ∧ HasDerivAt g (-d) R := by
  have hq : R * R + c ≠ 0 := by nlinarith
  refine ⟨_, LogarithmicHaloPotentialPlanarR2deriv_eval R phi t amp c m [] hq, ?_⟩
  have h1 : HasDerivAt (fun r : ℝ => r * r + c) (1 * R + R * 1) R :=
    ((hasDerivAt_id R).mul (hasDerivAt_id R)).add_const c
  have h2 : HasDerivAt (fun r : ℝ => -amp * r) (-amp) R := by
    simpa using (hasDerivAt_id R).const_mul (-amp)
  have h3 := h2.div h1 hq
  have hcont : ContinuousAt (fun r : ℝ => r * r + c) R := h1.continuousAt
  have hev : g =ᶠ[nhds R] fun r => -amp * r / (r * r + c) := by
    filter_upwards [hcont.eventually_ne hq] with r hr
    exact hg r _ (by rw [LogarithmicHaloPotentialPlanarRforce_eval, cdiv_of_ne _ hr])
  have h4 := h3.congr_of_eventuallyEq hev
  convert h4 using 1
  field_simp
  ring

/-- A concrete instance: `amp = 1`, `c = 1`, `R = 1`, with `g` the returned value (and `0`
where there is none). -/
theorem logHalo_PlanarR2deriv_is_derivative_witness :
    (0 : ℝ) < 1 ^ 2 + 1 ∧
      ∃ d, LogarithmicHaloPotentialPlanarR2deriv (1 : ℝ) 0 0 2 [1, 1] = some d
        ∧ HasDerivAt
            (fun r => (LogarithmicHaloPotentialPlanarRforce r 0 0 2 [(1 : ℝ), 1]).getD 0)
            (-d) 1 :=
  ⟨by norm_num,
    logHalo_PlanarR2deriv_is_derivative 1 1 1 0 0 2 2 _ (by norm_num)
      (fun r v h => by simp [h])⟩

/-! ## Order of the parameters -/

/-- Counterexample to C13: on the one array `[1, 1, 2]` at `R = 1`, `Z = 0` the 3-D
radial force returns `-1/3` (core term `args[2] = 2`) and the planar radial force
returns `-1/2` (core term `args[1] = 1`). -/
theorem logHalo_same_array_differs :
    LogarithmicHaloPotentialRforce (1 : ℝ) 0 0 0 3 [1, 1, 2] = some (-1 / 3)
      ∧ LogarithmicHaloPotentialPlanarRforce (1 : ℝ) 0 0 3 [1, 1, 2] = some (-1 / 2)
      ∧ LogarithmicHaloPotentialRforce (1 : ℝ) 0 0 0 3 [1, 1, 2]
        ≠ LogarithmicHaloPotentialPlanarRforce (1 : ℝ) 0 0 3 [1, 1, 2] := by
  have h1 : LogarithmicHaloPotentialRforce (1 : ℝ) 0 0 0 3 [1, 1, 2] = some (-1 / 3) := by
    rw [LogarithmicHaloPotentialRforce_eval (1 : ℝ) 0 0 0 1 1 2 3 [] one_ne_zero,
      cdiv_of_ne _ (by norm_num)]
    norm_num
  have h2 : LogarithmicHaloPotentialPlanarRforce (1 : ℝ) 0 0 3 [1, 1, 2] = some (-1 / 2) := by
    rw [LogarithmicHaloPotentialPlanarRforce_eval, cdiv_of_ne _ (by norm_num)]
    norm_num
  refine ⟨h1, h2, ?_⟩
  rw [h1, h2]
  norm_num

/-- C13 (amended): the 3-D logarithmic-halo radial force reads its array in the order
`amp, q, c` and the planar one in the order `amp, c`: for every array `[x0, x1, x2]` with
`x1 ≠ 0` and every `R`, the 3-D call at `Z = 0` divides by `R*R + x2`, the planar call on
the same array divides by `R*R + x1`, and the 3-D call equals the planar call on
`[x0, x2]`. -/
theorem logHalo_argument_order (x0 x1 x2 R phi t : ℝ) (n m : Int) (h1 : x1 ≠ 0) :
    LogarithmicHaloPotentialRforce R 0 phi t n [x0, x1, x2] = cdiv (-x0 * R) (R * R + x2)
      ∧ LogarithmicHaloPotentialPlanarRforce R phi t m [x0, x1, x2]
        = cdiv (-x0 * R) (R * R + x1)
      ∧ LogarithmicHaloPotentialRforce R 0 phi t n [x0, x1, x2]
        = LogarithmicHaloPotentialPlanarRforce R phi t m [x0, x2] := by
  have e : LogarithmicHaloPotentialRforce R 0 phi t n [x0, x1, x2]
      = cdiv (-x0 * R) (R * R + x2) := by
    rw [LogarithmicHaloPotentialRforce_eval R 0 phi t x0 x1 x2 n [] h1]
    simp
  refine ⟨e, LogarithmicHaloPotentialPlanarRforce_eval R phi t x0 x1 m [x2], ?_⟩
  rw [e, LogarithmicHaloPotentialPlanarRforce_eval]

/-- A concrete instance: the array `[1, 1, 2]` at `R = 1`. -/
theorem logHalo_argument_order_witness :
    (1 : ℝ) ≠ 0 ∧
      (LogarithmicHaloPotentialRforce (1 : ℝ) 0 0 0 3 [1, 1, 2]
          = cdiv (-1 * 1) ((1 : ℝ) * 1 + 2)
        ∧ LogarithmicHaloPotentialPlanarRforce (1 : ℝ) 0 0 3 [1, 1, 2]
          = cdiv (-1 * 1) ((1 : ℝ) * 1 + 1)
        ∧ LogarithmicHaloPotentialRforce (1 : ℝ) 0 0 0 3 [1, 1, 2]
          = LogarithmicHaloPotentialPlanarRforce (1 : ℝ) 0 0 3 [1, 2]) :=
  ⟨one_ne_zero, logHalo_argument_order 1 1 2 1 0 0 3 3 one_ne_zero⟩

/-! ## Unused arguments -/

/-- C14: no result depends on `phi`, `t` or `nargs`: for each of the eight functions, two
calls that agree on `R`, `Z` (where present) and the parameter array return the same
result, whatever `phi`, `t` and `nargs` are in each. -/
theorem result_independent_of_phi_t_nargs (R Z phi t phi2 t2 : ℝ) (n n2 : Int)
    (p : List ℝ) :
    JaffePotentialRforce Real.rpow R Z phi t n p
        = JaffePotentialRforce Real.rpow R Z phi2 t2 n2 p
      ∧ JaffePotentialPlanarRforce Real.rpow R phi t n p
        = JaffePotentialPlanarRforce Real.rpow R phi2 t2 n2 p
      ∧ JaffePotentialzforce Real.rpow R Z phi t n p
        = JaffePotentialzforce Real.rpow R Z phi2 t2 n2 p
      ∧ JaffePotentialPlanarR2deriv Real.rpow R phi t n p
        = JaffePotentialPlanarR2deriv Real.rpow R phi2 t2 n2 p
      ∧ LogarithmicHaloPotentialRforce R Z phi t n p
        = LogarithmicHaloPotentialRforce R Z phi2 t2 n2 p
      ∧ LogarithmicHaloPotentialPlanarRforce R phi t n p
        = LogarithmicHaloPotentialPlanarRforce R phi2 t2 n2 p
      ∧ LogarithmicHaloPotentialzforce R Z phi t n p
        = LogarithmicHaloPotentialzforce R Z phi2 t2 n2 p
      ∧ LogarithmicHaloPotentialPlanarR2deriv R phi t n p
        = LogarithmicHaloPotentialPlanarR2deriv R phi2 t2 n2 p :=
  ⟨rfl, rfl, rfl, rfl, rfl, rfl, rfl, rfl⟩

/-! ## Absence of arithmetic errors -/

/-- C16: for every `amp`, `q ≠ 0`, `c` and every `(R, Z)` with `R^2 + (Z/q)^2 + c > 0`, with
`Phi(R, Z) = (amp/2) * ln(R^2 + (Z/q)^2 + c)`: the value returned by
`LogarithmicHaloPotentialRforce(R, Z, ..., [amp, q, c])` is `-dPhi/dR` and the value
returned by `LogarithmicHaloPotentialzforce(R, Z, ..., [amp, q, c])` is `-dPhi/dZ`
at `(R, Z)`. -/
theorem logHalo_forces_are_gradient (amp q c R Z phi t : ℝ) (n : Int)
    (hq : q ≠ 0) (hpos : 0 < R ^ 2 + (Z / q) ^ 2 + c) :
    (∃ v, LogarithmicHaloPotentialRforce R Z phi t n [amp, q, c] = some v
        ∧ HasDerivAt (fun r => amp / 2 * Real.log (r ^ 2 + (Z / q) ^ 2 + c)) (-v) R)
      ∧ (∃ w, LogarithmicHaloPotentialzforce R Z phi t n [amp, q, c] = some w
        ∧ HasDerivAt (fun z => amp / 2 * Real.log (R ^ 2 + (z / q) ^ 2 + c)) (-w) Z) := by
  have hD : R * R + Z / q * (Z / q) + c = R ^ 2 + (Z / q) ^ 2 + c := by ring
  have hne : R ^ 2 + (Z / q) ^ 2 + c ≠ 0 := hpos.ne'
  constructor
  · refine ⟨-amp * R / (R ^ 2 + (Z / q) ^ 2 + c), ?_, ?_⟩
    · rw [LogarithmicHaloPotentialRforce_eval R Z phi t amp q c n [] hq, hD,
        cdiv_of_ne _ hne]
    · have h1 : HasDerivAt (fun r : ℝ => r ^ 2 + (Z / q) ^ 2 + c) (2 * R) R := by
        simpa using ((hasDerivAt_pow 2 R).add_const ((Z / q) ^ 2)).add_const c
      have h3 := (h1.log hne).const_mul (amp / 2)
      convert h3 using 1
      generalize R ^ 2 + (Z / q) ^ 2 + c = D at hne
      field_simp
      ring
  · refine ⟨-amp * Z / q / q / (R ^ 2 + (Z / q) ^ 2 + c), ?_, ?_⟩
    · rw [LogarithmicHaloPotentialzforce_eval R Z phi t amp q c n [] hq, hD,
        cdiv_of_ne _ hne]
    · have h0 : HasDerivAt (fun z : ℝ => (z / q) ^ 2) (2 * (Z / q) * (1 / q)) Z := by
        simpa using ((hasDerivAt_id Z).div_const q).pow 2
      have h1 : HasDerivAt (fun z : ℝ => R ^ 2 + (z / q) ^ 2 + c) (2 * (Z / q) * (1 / q)) Z :=
        (h0.const_add (R ^ 2)).add_const c
      have h3 := (h1.log hne).const_mul (amp / 2)
      convert h3 using 1
      generalize R ^ 2 + (Z / q) ^ 2 + c = D at hne
      field_simp
      ring

/-- A concrete instance: `amp = 1`, `q = 2`, `c = 1`, `R = 1`, `Z = 2`. -/
theorem logHalo_forces_are_gradient_witness :
    ((2 : ℝ) ≠ 0 ∧ (0 : ℝ) < 1 ^ 2 + (2 / 2) ^ 2 + 1) ∧
    ((∃ v, LogarithmicHaloPotentialRforce (1 : ℝ) 2 0 0 3 [1, 2, 1] = some v
        ∧ HasDerivAt (fun r => (1 : ℝ) / 2 * Real.log (r ^ 2 + (2 / 2) ^ 2 + 1)) (-v) 1)
      ∧ (∃ w, LogarithmicHaloPotentialzforce (1 : ℝ) 2 0 0 3 [1, 2, 1] = some w
        ∧ HasDerivAt (fun z => (1 : ℝ) / 2 * Real.log (1 ^ 2 + (z / 2) ^ 2 + 1)) (-w) 2)) :=
  ⟨⟨by norm_num, by norm_num⟩,
    logHalo_forces_are_gradient 1 2 1 1 2 0 0 3 (by norm_num) (by norm_num)⟩

/-- C17: for every `amp`, `a > 0` and every `(R, Z) ≠ (0, 0)`, with `s = sqrt(R^2 + Z^2)`
and `Phi(R, Z) = -amp * ln(1 + a/s)`: the value returned by
`JaffePotentialRforce(R, Z, ..., [amp, a])` is `-dPhi/dR` and the value returned by
`JaffePotentialzforce(R, Z, ..., [amp, a])` is `-dPhi/dZ` at `(R, Z)`. -/
theorem jaffe_forces_are_gradient (amp a R Z phi t : ℝ) (n : Int)
    (ha : 0 < a) (h0 : R ≠ 0 ∨ Z ≠ 0) :
    (∃ v, JaffePotentialRforce Real.rpow R Z phi t n [amp, a] = some v
        ∧ HasDerivAt (fun r => -amp * Real.log (1 + a / Real.sqrt (r ^ 2 + Z ^ 2))) (-v) R)
      ∧ (∃ w, JaffePotentialzforce Real.rpow R Z phi t n [amp, a] = some w
        ∧ HasDerivAt (fun z => -amp * Real.log (1 + a / Real.sqrt (R ^ 2 + z ^ 2))) (-w) Z) := by
  have hsq : R * R + Z * Z = R ^ 2 + Z ^ 2 := by ring
  have hs : 0 < Real.sqrt (R ^ 2 + Z ^ 2) := by
    rw [← hsq]; exact sqrt_sumsq_pos R Z h0
  have hS : R ^ 2 + Z ^ 2 ≠ 0 := (Real.sqrt_pos.mp hs).ne'
  have hd : 0 < 1 + a / Real.sqrt (R ^ 2 + Z ^ 2) := by positivity
  have hs0 : Real.sqrt (R * R + Z * Z) ≠ 0 := by rw [hsq]; exact hs.ne'
  constructor
  · refine ⟨-amp * a * R * ((Real.sqrt (R ^ 2 + Z ^ 2)) ^ 3)⁻¹
        / (1 + a / Real.sqrt (R ^ 2 + Z ^ 2)), ?_, ?_⟩
    · rw [JaffePotentialRforce_eval R Z phi t amp a n [] hs0, hsq, cdiv_of_ne _ hd.ne']
    · have h1 : HasDerivAt (fun r : ℝ => r ^ 2 + Z ^ 2) (2 * R) R := by
        simpa using (hasDerivAt_pow 2 R).add_const (Z ^ 2)
      have h2 := h1.sqrt hS
      have h3 := ((hasDerivAt_const R a).div h2 hs.ne').const_add 1
      have h4 := (h3.log hd.ne').const_mul (-amp)
      convert h4 using 1
      have hs1 : Real.sqrt (R ^ 2 + Z ^ 2) ≠ 0 := hs.ne'
      have hd1 : Real.sqrt (R ^ 2 + Z ^ 2) + a ≠ 0 := by positivity
      generalize Real.sqrt (R ^ 2 + Z ^ 2) = s at hs1 hd1
      field_simp
      ring
  · refine ⟨-amp * a * Z * ((Real.sqrt (R ^ 2 + Z ^ 2)) ^ 3)⁻¹
        / (1 + a / Real.sqrt (R ^ 2 + Z ^ 2)), ?_, ?_⟩
    · rw [JaffePotentialzforce_eval R Z phi t amp a n [] hs0, hsq, cdiv_of_ne _ hd.ne']
    · have h1 : HasDerivAt (fun z : ℝ => R ^ 2 + z ^ 2) (2 * Z) Z := by
        simpa using (hasDerivAt_pow 2 Z).const_add (R ^ 2)
      have h2 := h1.sqrt hS
      have h3 := ((hasDerivAt_const Z a).div h2 hs.ne').const_add 1
      have h4 := (h3.log hd.ne').const_mul (-amp)
      convert h4 using 1
      have hs1 : Real.sqrt (R ^ 2 + Z ^ 2) ≠ 0 := hs.ne'
      have hd1 : Real.sqrt (R ^ 2 + Z ^ 2) + a ≠ 0 := by positivity
      generalize Real.sqrt (R ^ 2 + Z ^ 2) = s at hs1 hd1
      field_simp
      ring

/-- A concrete instance: `amp = 1`, `a = 1`, `R = 3`, `Z = 4`. -/
theorem jaffe_forces_are_gradient_witness :
    ((0 : ℝ) < 1 ∧ ((3 : ℝ) ≠ 0 ∨ (4 : ℝ) ≠ 0)) ∧
    ((∃ v, JaffePotentialRforce Real.rpow (3 : ℝ) 4 0 0 2 [1, 1] = some v
        ∧ HasDerivAt (fun r => -(1 : ℝ) * Real.log (1 + 1 / Real.sqrt (r ^ 2 + 4 ^ 2)))
            (-v) 3)
      ∧ (∃ w, JaffePotentialzforce Real.rpow (3 : ℝ) 4 0 0 2 [1, 1] = some w
        ∧ HasDerivAt (fun z => -(1 : ℝ) * Real.log (1 + 1 / Real.sqrt (3 ^ 2 + z ^ 2)))
            (-w) 4)) :=
  ⟨⟨by norm_num, Or.inl (by norm_num)⟩,
    jaffe_forces_are_gradient 1 1 3 4 0 0 2 (by norm_num) (Or.inl (by norm_num))⟩

/-! ## The Jaffe force is central -/

end Galpy
